import Mathlib

/-!
Verification of the recursive crawl-and-download engine of
RecursiveSpider (src/dump.py), class RecursiveDirectoryDownloader.

Python strings are embedded as `List Char`.  Pure string manipulation
(the path mapper, the listing parser's filtering and classification) is
translated directly from the source.  External collaborators (the HTTP
fetcher, the filesystem) are modelled as explicit oracles / explicit
state, and the two stateful loops (the worker queue drain and the
recursive crawl) are embedded as state-passing functions.
-/

namespace RecursiveSpider

/-! ## String helpers (embeddings of the Python string primitives used) -/

/-- Embedding of Python `s.replace('../', '')`: removes every
non-overlapping occurrence of the three-character sequence `../`,
scanning left to right, in a single pass. -/
def stripDotDotSlash : List Char → List Char
  | '.' :: '.' :: '/' :: rest => stripDotDotSlash rest
  | c :: rest => c :: stripDotDotSlash rest
  | [] => []

/-- Embedding of Python `s.replace('./', '')`: removes every
non-overlapping occurrence of the two-character sequence `./`,
scanning left to right, in a single pass. -/
def stripDotSlash : List Char → List Char
  | '.' :: '/' :: rest => stripDotSlash rest
  | c :: rest => c :: stripDotSlash rest
  | [] => []

/-- Embedding of Python `s in t` (substring test). -/
def containsSub (pat : List Char) : List Char → Bool
  | [] => pat.isEmpty
  | c :: t => pat.isPrefixOf (c :: t) || containsSub pat t

/-- Characters stripped by Python `str.strip()` (ASCII whitespace). -/
def isPySpace (c : Char) : Bool :=
  c = ' ' || c = '\t' || c = '\n' || c = '\r' || c = '\x0b' || c = '\x0c'

/-- Embedding of Python `s.strip()` on ASCII input. -/
def pyStrip (s : List Char) : List Char :=
  ((s.dropWhile isPySpace).reverse.dropWhile isPySpace).reverse

/-- Embedding of Python `s.rstrip('/')`: removes every trailing `/`. -/
def rstripSlashes (s : List Char) : List Char :=
  (s.reverse.dropWhile (fun c => c = '/')).reverse

/-! ## Path Mapper: `RecursiveDirectoryDownloader.get_local_path` -/

/-- Embedding of Python `os.path.join(a, b)` (posixpath, two arguments):
if `b` is absolute the first component is discarded; otherwise the two
are joined with a single `/` separator. -/
def osPathJoin (a b : List Char) : List Char :=
  if b.head? = some '/' then b
  else if a = [] then b
  else if a.getLast? = some '/' then a ++ b
  else a ++ '/' :: b

/-- The sanitization line of `get_local_path`:
`path.replace('../', '').replace('./', '')`. -/
def sanitizePath (p : List Char) : List Char :=
  stripDotSlash (stripDotDotSlash p)

/-- Embedding of `RecursiveDirectoryDownloader.get_local_path`, as a
function of the output directory and of the URL's path component
(`urlparse(url).path`): strips leading slashes, removes one trailing
slash, applies the textual sanitization, and joins onto the output
directory. -/
def get_local_path (output_dir url_path : List Char) : List Char :=
  let path := url_path.dropWhile (fun c => c = '/')
  let path := if path.getLast? = some '/' then path.dropLast else path
  let path := sanitizePath path
  osPathJoin output_dir path

/-! ## URL model

The source resolves and splits URLs with `urllib.parse.urljoin` and
`urllib.parse.urlparse`.  These library collaborators are modelled here
for the cases the program exercises: absolute `scheme://authority/...`
URLs and relative path references resolved against such a base
(RFC 3986 section 5). -/

/-- Model of URL scheme splitting: if `s` is `scheme:rest` with a
nonempty scheme starting with a letter, returns `(scheme, rest)`. -/
def schemeSplit (s : List Char) : Option (List Char × List Char) :=
  match s.span (fun c => c.isAlphanum || c = '+' || c = '-' || c = '.') with
  | (sch, ':' :: rest) =>
      match sch with
      | [] => none
      | c :: _ => if c.isAlpha then some (sch, rest) else none
  | _ => none

/-- A reference counts as absolute for `urljoin` purposes when it has a
scheme followed by a network authority (`scheme://...`); `urljoin`
returns such a reference unchanged. -/
def isAbsoluteWithAuthority (s : List Char) : Bool :=
  match schemeSplit s with
  | some (_, rest) => ['/', '/'].isPrefixOf rest
  | none => false

/-- Model of splitting an URL into `(scheme://authority, path-query-fragment)`;
for a string without a scheme the first component is empty. -/
def splitURL (u : List Char) : List Char × List Char :=
  match schemeSplit u with
  | some (sch, rest) =>
      if ['/', '/'].isPrefixOf rest then
        let afterSS := rest.drop 2
        let auth := afterSS.takeWhile (fun c => c != '/' && c != '?' && c != '#')
        (sch ++ ':' :: '/' :: '/' :: auth, afterSS.drop auth.length)
      else (sch ++ [':'], rest)
  | none => ([], u)

/-- Model of `urllib.parse.urlparse(u).path` for absolute http-style
URLs: the part after the authority, up to the first `?` or `#`. -/
def urlPathOf (u : List Char) : List Char :=
  (splitURL u).2.takeWhile (fun c => c != '?' && c != '#')

/-- Stack-based core of RFC 3986 remove_dot_segments, on a list of path
segments: `.` segments are dropped, `..` pops the previous segment
(clamped at the root), other segments are kept. -/
def rdsCore : List (List Char) → List (List Char) → List (List Char)
  | stack, [] => stack.reverse
  | stack, seg :: rest =>
      if seg = ['.'] then rdsCore stack rest
      else if seg = ['.', '.'] then rdsCore stack.tail rest
      else rdsCore (seg :: stack) rest

/-- Model of RFC 3986 remove_dot_segments on a path string: splits on
`/`, processes the segments, and restores a trailing slash when the
final input segment was `.` or `..`. -/
def removeDotSegments (p : List Char) : List Char :=
  match p with
  | '/' :: rest =>
      let segs := rest.splitOn '/'
      let core := rdsCore [] segs
      let core :=
        if segs.getLast? = some ['.'] ∨ segs.getLast? = some ['.', '.'] then core ++ [[]]
        else core
      '/' :: List.intercalate ['/'] core
  | _ =>
      let segs := p.splitOn '/'
      let core := rdsCore [] segs
      let core :=
        if segs.getLast? = some ['.'] ∨ segs.getLast? = some ['.', '.'] then core ++ [[]]
        else core
      List.intercalate ['/'] core

/-- Model of `urllib.parse.urljoin(base, href)` restricted to the cases
exercised by the parser: an href carrying its own scheme and authority
is returned unchanged; otherwise the href (up to its query/fragment) is
merged with the base path (up to its last `/`), dot segments are
removed, and the href's query/fragment suffix is appended. -/
def resolveURL (base href : List Char) : List Char :=
  if isAbsoluteWithAuthority href then href
  else
    let pre := (splitURL base).1
    let basePath := (splitURL base).2.takeWhile (fun c => c != '?' && c != '#')
    let hrefPath := href.takeWhile (fun c => c != '?' && c != '#')
    let hrefSuffix := href.drop hrefPath.length
    let merged :=
      if hrefPath.head? = some '/' then hrefPath
      else
        basePath.take
            (basePath.length - (basePath.reverse.takeWhile (fun c => c != '/')).length)
          ++ hrefPath
    pre ++ removeDotSegments merged ++ hrefSuffix

/-! ## Listing Parser: `RecursiveDirectoryDownloader.parse_directory_listing`

BeautifulSoup's link extraction is abstracted: the parser is embedded as
a function of the list of `(href, visible text)` pairs extracted from
the page, which is exactly what the source's loop over
`soup.find_all('a')` consumes. -/

/-- One extracted hyperlink: its href attribute and its visible text. -/
structure Link where
  href : List Char
  text : List Char
deriving DecidableEq

/-- Result of parsing one directory listing page. -/
structure DirListing (α : Type) where
  files : List α
  directories : List α
deriving DecidableEq

/-- The skip condition of the parser loop:
`href in ['', '../', './', '/'] or href.startswith('?') or 'Parent Directory' in link.text`. -/
def skipHref (href text : List Char) : Bool :=
  href == [] || href == ("../".toList) || href == ("./".toList) || href == ("/".toList)
    || href.head? == some '?' || containsSub ("Parent Directory".toList) text

/-- Body of the parser loop for one link. -/
def parseStep (base_url : List Char) (items : DirListing (List Char)) (link : Link) :
    DirListing (List Char) :=
  let href := pyStrip link.href
  if skipHref href link.text then items
  else
    let full_url := resolveURL (base_url ++ ['/']) href
    if href.getLast? == some '/' then
      { items with directories := items.directories ++ [full_url] }
    else
      { items with files := items.files ++ [full_url] }

/-- Embedding of `RecursiveDirectoryDownloader.parse_directory_listing`. -/
def parse_directory_listing (base_url : List Char) (links : List Link) :
    DirListing (List Char) :=
  links.foldl (parseStep base_url) ⟨[], []⟩

/-- A link survives the parser's skip condition. -/
def keptLink (l : Link) : Bool := !(skipHref (pyStrip l.href) l.text)

/-- The absolute URL the parser produces for a retained link. -/
def resolvedOf (base_url : List Char) (l : Link) : List Char :=
  resolveURL (base_url ++ ['/']) (pyStrip l.href)

/-- The parser's directory test: the stripped href ends in `/`. -/
def isDirHref (l : Link) : Bool := (pyStrip l.href).getLast? == some '/'

/-! ## Download worker: `RecursiveDirectoryDownloader.download_file`

The HTTP fetcher is an external collaborator, modelled as an oracle
mapping a file URL to `none` (request exception or non-2xx status) or
to a response with a content type and a body.  The filesystem is
modelled as the set of paths that currently exist with nonempty
content; writing the streamed body and then deleting the file when the
verification fails leaves the set unchanged, so each branch of the
source is modelled by its net effect on that set.  The worker pool's
mutations of the shared tracker sets are serialized (the sets are
guarded against lost updates per the design), so draining the queue is
modelled as a fold over the enqueued items. -/

/-- An HTTP response as seen by `download_file`. -/
structure HttpResponse where
  contentType : List Char
  body : List Char
deriving DecidableEq

/-- The source's check for a directory listing disguised as a file:
`'text/html' in content_type and 'Index of' in response.text`. -/
def isDisguised (resp : HttpResponse) : Bool :=
  containsSub ("text/html".toList) resp.contentType
    && containsSub ("Index of".toList) resp.body

/-- The mutable run state touched by the workers: the two terminal
tracker sets, the set of on-disk target paths, and the list of URLs for
which a network fetch was actually issued (in order). -/
structure DState (α π : Type) where
  downloaded : Finset α
  failed : Finset α
  disk : Finset π
  fetched : List α

/-- Embedding of `RecursiveDirectoryDownloader.download_file`: the
dedupe check, the exists-on-disk skip, the fetch, the disguised-listing
guard (which returns `False` WITHOUT touching `failed_downloads`), the
write with post-write size verification, and the failure branch that
records the URL and removes any partial file. -/
def download_file [DecidableEq α] [DecidableEq π] (fetch : α → Option HttpResponse)
    (st : DState α π) (file_url : α) (local_path : π) : DState α π × Bool :=
  if file_url ∈ st.downloaded then (st, true)
  else if local_path ∈ st.disk then
    ({ st with downloaded := insert file_url st.downloaded }, true)
  else
    match fetch file_url with
    | none =>
        ({ st with failed := insert file_url st.failed,
                   fetched := st.fetched ++ [file_url] }, false)
    | some resp =>
        if isDisguised resp then
          ({ st with fetched := st.fetched ++ [file_url] }, false)
        else if 0 < resp.body.length then
          ({ st with downloaded := insert file_url st.downloaded,
                     disk := insert local_path st.disk,
                     fetched := st.fetched ++ [file_url] }, true)
        else
          ({ st with failed := insert file_url st.failed,
                     fetched := st.fetched ++ [file_url] }, false)

/-- Draining the work queue: the workers process every enqueued
`(file_url, local_path)` item exactly once. -/
def runQueue [DecidableEq α] [DecidableEq π] (fetch : α → Option HttpResponse)
    (st : DState α π) : List (α × π) → DState α π
  | [] => st
  | (u, p) :: rest => runQueue fetch (download_file fetch st u p).1 rest

/-- The run state at process start: empty tracker sets, a given set of
already existing target paths, no fetches issued. -/
def initDState {α π : Type} (D0 : Finset π) : DState α π :=
  { downloaded := ∅, failed := ∅, disk := D0, fetched := [] }

/-- The distinct file URLs appearing in a list of work items. -/
def urlsOf [DecidableEq α] (items : List (α × π)) : Finset α :=
  (items.map Prod.fst).toFinset

/-- Outcome classifier: the fetch for this URL succeeds with a
non-disguised, nonempty body. -/
def fetchOk (fetch : α → Option HttpResponse) (u : α) : Bool :=
  match fetch u with
  | some resp => !(isDisguised resp) && decide (0 < resp.body.length)
  | none => false

/-- Outcome classifier: the fetch for this URL raises, or succeeds with
a non-disguised empty body (post-write verification failure). -/
def fetchFail (fetch : α → Option HttpResponse) (u : α) : Bool :=
  match fetch u with
  | some resp => !(isDisguised resp) && decide (resp.body.length = 0)
  | none => true

/-- Outcome classifier: the fetch returns a directory listing disguised
as a file. -/
def fetchDisguised (fetch : α → Option HttpResponse) (u : α) : Bool :=
  match fetch u with
  | some resp => isDisguised resp
  | none => false

/-- Invariant of the queue drain, relative to the set `seen` of item
URLs processed so far: the tracker sets and the disk are determined by
each URL's fetch outcome and by whether its target path pre-existed,
and fetches are only issued for URLs whose target did not pre-exist. -/
def QInv [DecidableEq α] [DecidableEq π] (fetch : α → Option HttpResponse)
    (pathOf : α → π) (D0 : Finset π) (U seen : Finset α) (st : DState α π) : Prop :=
  seen ⊆ U ∧
  st.downloaded = seen.filter (fun u => pathOf u ∈ D0 ∨ fetchOk fetch u = true) ∧
  st.failed = seen.filter (fun u => pathOf u ∉ D0 ∧ fetchFail fetch u = true) ∧
  st.disk = D0 ∪ (seen.filter (fun u => pathOf u ∈ D0 ∨ fetchOk fetch u = true)).image pathOf ∧
  ∀ u ∈ st.fetched, u ∈ seen ∧ pathOf u ∉ D0

/-- Concrete fetch oracle for the re-run scenario: the clean URL
`http://s/x/y` serves a nonempty file, every other URL serves an HTML
listing disguised as a file. -/
def rerunFetch : List Char → Option HttpResponse := fun u =>
  if u = ("http://s/x/y".toList) then
    some { contentType := "application/octet-stream".toList, body := "data".toList }
  else
    some { contentType := "text/html".toList, body := "<h1>Index of /x</h1>".toList }

/-- Concrete work items for the re-run scenario: two distinct file URLs
whose path components sanitize to the same local path `out/x/y` under
`get_local_path`. -/
def rerunItems : List (List Char × List Char) :=
  [("http://s/x/./y".toList, get_local_path ("out".toList) (urlPathOf ("http://s/x/./y".toList))),
   ("http://s/x/y".toList, get_local_path ("out".toList) (urlPathOf ("http://s/x/y".toList)))]

/-! ## Crawler: `RecursiveDirectoryDownloader.crawl_directory`

`get_directory_contents` (HTTP fetch + parse, degrading to an empty
listing on any error) is modelled as a total oracle from directory URL
to listing.  The crawl records an observable trace of events: marking a
directory visited (`scanned_dirs.add`), fetching its listing, and
enqueueing a work item for a file found in a directory.  The recursion
is embedded with a fuel parameter; a fuel of `|universe| + 1` is shown
sufficient (the visited-set check is the termination mechanism). -/

/-- Observable crawl events: `visit u` marks `u` in `scanned_dirs`,
`fetch u` fetches the listing of `u`, `enq d f` enqueues file `f`
discovered in directory `d`. -/
inductive CEv (α : Type) where
  | visit : α → CEv α
  | fetch : α → CEv α
  | enq : α → α → CEv α
deriving DecidableEq

/-- Crawler state: the `scanned_dirs` set, the work queue of
`(file_url, local_path)` items, and the event trace. -/
structure CrawlSt (α π : Type) where
  scanned : Finset α
  queue : List (α × π)
  trace : List (CEv α)

/-- Embedding of `RecursiveDirectoryDownloader.crawl_directory`: return
if the URL was already scanned; otherwise mark it scanned, fetch its
listing, enqueue every file with its local path, then recurse into the
subdirectories in order. -/
def crawl_directory [DecidableEq α] (server : α → DirListing α) (pathOf : α → π) :
    Nat → CrawlSt α π → α → CrawlSt α π
  | 0, st, _ => st
  | fuel + 1, st, url =>
      if url ∈ st.scanned then st
      else
        let contents := server url
        let st1 : CrawlSt α π :=
          { scanned := insert url st.scanned,
            queue := st.queue ++ contents.files.map (fun f => (f, pathOf f)),
            trace := st.trace
              ++ (CEv.visit url :: CEv.fetch url :: contents.files.map (CEv.enq url)) }
        contents.directories.foldl (crawl_directory server pathOf fuel) st1

/-- The crawler's initial state. -/
def initCrawlSt {α π : Type} : CrawlSt α π :=
  { scanned := ∅, queue := [], trace := [] }

/-- Embedding of the constructor plus `start_download`'s crawl phase:
`self.base_url = base_url.rstrip('/')` followed by
`self.crawl_directory(self.base_url)`. -/
def start_download_crawl [DecidableEq π] (server : List Char → DirListing (List Char))
    (pathOf : List Char → π) (fuel : Nat) (base_url : List Char) : CrawlSt (List Char) π :=
  crawl_directory server pathOf fuel initCrawlSt (rstripSlashes base_url)

/-- The directory URLs fetched, in trace order. -/
def fetchesOf {α : Type} : List (CEv α) → List α
  | [] => []
  | CEv.fetch u :: t => u :: fetchesOf t
  | _ :: t => fetchesOf t

/-- The directory URLs marked visited, in trace order. -/
def visitsOf {α : Type} : List (CEv α) → List α
  | [] => []
  | CEv.visit u :: t => u :: visitsOf t
  | _ :: t => visitsOf t

/-- Every fetch of a directory's listing is preceded by the visit event
that marked the directory scanned. -/
def fetchAfterVisit {α : Type} (tr : List (CEv α)) : Prop :=
  ∀ pre u post, tr = pre ++ CEv.fetch u :: post → CEv.visit u ∈ pre

/-- Every enqueue of a file is preceded by the visit event of the
directory whose listing produced it. -/
def enqAfterVisit {α : Type} (tr : List (CEv α)) : Prop :=
  ∀ pre d f post, tr = pre ++ CEv.enq d f :: post → CEv.visit d ∈ pre

/-- The trace contains, for a visited directory `u`, the contiguous
block: visit `u`, fetch `u`, then the enqueues of all of `u`'s files —
so all of `u`'s files are enqueued before any event that follows the
block, in particular before any visit the processing of `u` causes. -/
def visitBlock {α : Type} (server : α → DirListing α) (tr : List (CEv α)) (u : α) : Prop :=
  ∃ a b, tr = a ++ (CEv.visit u :: CEv.fetch u :: (server u).files.map (CEv.enq u)) ++ b

/-- Trace and bookkeeping invariant of the crawler, relative to the
listing oracle. -/
def traceInv {α π : Type} (server : α → DirListing α) (st : CrawlSt α π) : Prop :=
  (fetchesOf st.trace).Nodup ∧
  (∀ u, u ∈ fetchesOf st.trace ↔ u ∈ st.scanned) ∧
  (visitsOf st.trace).Nodup ∧
  (∀ u, u ∈ visitsOf st.trace ↔ u ∈ st.scanned) ∧
  fetchAfterVisit st.trace ∧
  enqAfterVisit st.trace ∧
  (∀ u ∈ st.scanned, visitBlock server st.trace u)

/-- Extension order on crawler states: the scanned set only grows, and
the queue and trace are only appended to. -/
def crawlExt {α π : Type} (s t : CrawlSt α π) : Prop :=
  s.scanned ⊆ t.scanned ∧ (∃ q, t.queue = s.queue ++ q) ∧ (∃ d, t.trace = s.trace ++ d)

/-- Concrete two-directory mock server with a cycle: directory 0 links
to directory 1 and directory 1 links back to directory 0. -/
def cycleServer : Nat → DirListing Nat := fun u =>
  if u = 0 then { files := [], directories := [1] }
  else if u = 1 then { files := [], directories := [0] }
  else { files := [], directories := [] }

/-- Concrete mock server with a shared subdirectory: the root 0 lists
directories 1 and 2 (in that order), and directory 2 lists file 9 and
directory 1 again. -/
def crossServer : Nat → DirListing Nat := fun u =>
  if u = 0 then { files := [], directories := [1, 2] }
  else if u = 2 then { files := [9], directories := [1] }
  else { files := [], directories := [] }

/-- Concrete one-directory mock server whose root 0 lists one file 9. -/
def lineServer : Nat → DirListing Nat := fun u =>
  if u = 0 then { files := [9], directories := [] }
  else { files := [], directories := [] }

/-! ## Theorems -/

/-- C1: traversal safety of get_local_path.  The claim states that the
local path is never outside the output root.  Counter-evaluation: the
URL path component `/..//etc/passwd` maps to the absolute path
`/etc/passwd`, which does not lie under the output root
`./downloaded_files` (it is not even a relative path). -/
theorem c1_get_local_path_escape :
    get_local_path ("./downloaded_files".toList) ("/..//etc/passwd".toList)
      = "/etc/passwd".toList ∧
    List.isPrefixOf ("./downloaded_files".toList)
      (get_local_path ("./downloaded_files".toList) ("/..//etc/passwd".toList)) = false ∧
    (get_local_path ("./downloaded_files".toList) ("/..//etc/passwd".toList)).head?
      = some '/' := by
  decide

/-- C8 counterexample: the textual strip of `../` and `./` is not
idempotent.  On `....///x` one application yields `./x`, a second
application yields `x`. -/
theorem c8_sanitize_not_idempotent :
    sanitizePath (sanitizePath ("....///x".toList))
      ≠ sanitizePath ("....///x".toList) ∧
    sanitizePath ("....///x".toList) = "./x".toList ∧
    sanitizePath (sanitizePath ("....///x".toList)) = "x".toList := by
  decide

/-- If a string contains no occurrence of the sequence `../`, the
single-pass strip of `../` leaves it unchanged. -/
theorem stripDotDotSlash_eq_self (s : List Char)
    (h : containsSub ("../".toList) s = false) : stripDotDotSlash s = s := by
  induction s using stripDotDotSlash.induct with
  | case1 rest ih =>
      exfalso
      simp [containsSub, List.isPrefixOf] at h
  | case2 c rest hne ih =>
      have hr : containsSub ("../".toList) rest = false := by
        simp [containsSub] at h
        exact h.2
      rw [stripDotDotSlash.eq_def]
      split
      · rename_i r heq
        injection heq with h1 h2
        exact absurd (hne r) (by simp [h1, h2])
      · rename_i heq
        injection heq with h1 h2
        subst h1
        subst h2
        rw [ih hr]
      · rename_i heq
        exact absurd heq (by simp)
  | case3 => rfl

/-- If a string contains no occurrence of the sequence `./`, the
single-pass strip of `./` leaves it unchanged. -/
theorem stripDotSlash_eq_self (s : List Char)
    (h : containsSub ("./".toList) s = false) : stripDotSlash s = s := by
  induction s using stripDotSlash.induct with
  | case1 rest ih =>
      exfalso
      simp [containsSub, List.isPrefixOf] at h
  | case2 c rest hne ih =>
      have hr : containsSub ("./".toList) rest = false := by
        simp [containsSub] at h
        exact h.2
      rw [stripDotSlash.eq_def]
      split
      · rename_i r heq
        injection heq with h1 h2
        exact absurd (hne r) (by simp [h1, h2])
      · rename_i heq
        injection heq with h1 h2
        subst h1
        subst h2
        rw [ih hr]
      · rename_i heq
        exact absurd heq (by simp)
  | case3 => rfl

/-- C8 amended: the textual strip of `../` and `./` is not idempotent in
general (see the counterexample), but it is a fixpoint on every path
whose sanitized form contains no residual occurrence of `../` or `./`;
for such paths, sanitizing twice equals sanitizing once. -/
theorem c8_sanitize_idempotent_when_clean (p : List Char)
    (h1 : containsSub ("../".toList) (sanitizePath p) = false)
    (h2 : containsSub ("./".toList) (sanitizePath p) = false) :
    sanitizePath (sanitizePath p) = sanitizePath p := by
  have e1 := stripDotDotSlash_eq_self (sanitizePath p) h1
  have e2 := stripDotSlash_eq_self (sanitizePath p) h2
  show stripDotSlash (stripDotDotSlash (sanitizePath p)) = sanitizePath p
  rw [e1, e2]

section DownloadLemmas

variable {α π : Type} [DecidableEq α] [DecidableEq π]
variable {fetch : α → Option HttpResponse} {st : DState α π} {u : α} {p : π}

/-- Branch equation: URL already recorded as downloaded. -/
theorem download_file_of_downloaded (h : u ∈ st.downloaded) :
    download_file fetch st u p = (st, true) := by
  simp [download_file, h]

/-- Branch equation: target path already exists on disk. -/
theorem download_file_of_disk (h1 : u ∉ st.downloaded) (h2 : p ∈ st.disk) :
    download_file fetch st u p
      = ({ st with downloaded := insert u st.downloaded }, true) := by
  simp [download_file, h1, h2]

/-- Branch equation: the fetch raises or returns a non-2xx status. -/
theorem download_file_of_none (h1 : u ∉ st.downloaded) (h2 : p ∉ st.disk)
    (h3 : fetch u = none) :
    download_file fetch st u p
      = ({ st with failed := insert u st.failed,
                   fetched := st.fetched ++ [u] }, false) := by
  simp [download_file, h1, h2, h3]

/-- Branch equation: the response is an HTML listing disguised as a
file; the source returns `False` without touching any tracker set. -/
theorem download_file_of_disguised {resp : HttpResponse}
    (h1 : u ∉ st.downloaded) (h2 : p ∉ st.disk)
    (h3 : fetch u = some resp) (h4 : isDisguised resp = true) :
    download_file fetch st u p
      = ({ st with fetched := st.fetched ++ [u] }, false) := by
  simp [download_file, h1, h2, h3, h4]

/-- Branch equation: successful download of a nonempty body. -/
theorem download_file_of_ok {resp : HttpResponse}
    (h1 : u ∉ st.downloaded) (h2 : p ∉ st.disk)
    (h3 : fetch u = some resp) (h4 : isDisguised resp = false)
    (h5 : 0 < resp.body.length) :
    download_file fetch st u p
      = ({ st with downloaded := insert u st.downloaded,
                   disk := insert p st.disk,
                   fetched := st.fetched ++ [u] }, true) := by
  simp [download_file, h1, h2, h3, h4, h5]

/-- Branch equation: the written file is empty, so the post-write
verification fails, the partial file is removed and the URL recorded
as failed. -/
theorem download_file_of_empty {resp : HttpResponse}
    (h1 : u ∉ st.downloaded) (h2 : p ∉ st.disk)
    (h3 : fetch u = some resp) (h4 : isDisguised resp = false)
    (h5 : resp.body.length = 0) :
    download_file fetch st u p
      = ({ st with failed := insert u st.failed,
                   fetched := st.fetched ++ [u] }, false) := by
  simp [download_file, h1, h2, h3, h4, h5]

omit [DecidableEq α] in
/-- A URL cannot be classified both as succeeding and as failing. -/
theorem fetchOk_not_fetchFail (h : fetchOk fetch u = true) :
    fetchFail fetch u = false := by
  unfold fetchOk at h
  unfold fetchFail
  cases hf : fetch u with
  | none => rw [hf] at h; exact absurd h (by simp)
  | some resp =>
      rw [hf] at h
      simp only [Bool.and_eq_true, decide_eq_true_eq] at h
      simp [h.1, Nat.pos_iff_ne_zero.mp h.2]

omit [DecidableEq α] in
/-- A disguised response is classified neither ok nor failing. -/
theorem fetchDisguised_not_ok_fail (h : fetchDisguised fetch u = true) :
    fetchOk fetch u = false ∧ fetchFail fetch u = false := by
  unfold fetchDisguised at h
  unfold fetchOk fetchFail
  cases hf : fetch u with
  | none => rw [hf] at h; exact absurd h (by simp)
  | some resp =>
      rw [hf] at h
      have hd : isDisguised resp = true := h
      simp [hd]

omit [DecidableEq α] in
/-- Every fetch is classified by exactly one of the three outcomes. -/
theorem fetch_outcome_total (fetch : α → Option HttpResponse) (u : α) :
    fetchOk fetch u = true ∨ fetchFail fetch u = true
      ∨ fetchDisguised fetch u = true := by
  unfold fetchOk fetchFail fetchDisguised
  cases hf : fetch u with
  | none => simp
  | some resp =>
      by_cases hd : isDisguised resp = true
      · simp [hd]
      · rcases Nat.eq_zero_or_pos resp.body.length with h0 | h0
        · simp [hd, h0]
        · simp [hd, h0]

/-- One queue item preserves the drain invariant, moving its URL into
the processed set.  Requires that the target paths of distinct item
URLs are distinct, which holds in the source because the target path is
the deterministic image of the URL under `get_local_path`. -/
theorem QInv_step {pathOf : α → π} {D0 : Finset π} {U seen : Finset α}
    (hinj : ∀ a ∈ U, ∀ b ∈ U, pathOf a = pathOf b → a = b)
    (hu : u ∈ U) (hI : QInv fetch pathOf D0 U seen st) :
    QInv fetch pathOf D0 U (insert u seen) (download_file fetch st u (pathOf u)).1 := by
  obtain ⟨hsub, hdl, hfl, hdisk, hfetch⟩ := hI
  have hsub2 : insert u seen ⊆ U := Finset.insert_subset hu hsub
  have hfetch2 : ∀ v ∈ st.fetched, v ∈ insert u seen ∧ pathOf v ∉ D0 :=
    fun v hv => ⟨Finset.mem_insert_of_mem (hfetch v hv).1, (hfetch v hv).2⟩
  by_cases h1 : u ∈ st.downloaded
  · -- dedupe skip: u was already processed with a success outcome
    rw [download_file_of_downloaded h1]
    have hmem : u ∈ seen ∧ (pathOf u ∈ D0 ∨ fetchOk fetch u = true) := by
      rw [hdl] at h1
      exact Finset.mem_filter.mp h1
    refine ⟨hsub2, ?_, ?_, ?_, hfetch2⟩
    · rw [hdl, Finset.filter_insert, if_pos hmem.2, Finset.insert_eq_self.mpr]
      rw [hdl] at h1
      exact h1
    · rw [hfl, Finset.filter_insert, if_neg]
      rintro ⟨hnd, hff⟩
      rcases hmem.2 with hcase | hcase
      · exact hnd hcase
      · rw [fetchOk_not_fetchFail hcase] at hff
        exact absurd hff (by simp)
    · rw [hdisk, Finset.filter_insert, if_pos hmem.2, Finset.insert_eq_self.mpr]
      rw [hdl] at h1
      exact h1
  · by_cases h2 : pathOf u ∈ st.disk
    · -- target already on disk: record success without fetching
      rw [download_file_of_disk h1 h2]
      have hD0 : pathOf u ∈ D0 := by
        rw [hdisk] at h2
        rcases Finset.mem_union.mp h2 with hc | hc
        · exact hc
        · rcases Finset.mem_image.mp hc with ⟨v, hv, hvp⟩
          have hveq : v = u :=
            hinj v (hsub (Finset.mem_filter.mp hv).1) u hu hvp
          rw [hveq] at hv
          rw [hdl] at h1
          exact absurd hv h1
      have hP : pathOf u ∈ D0 ∨ fetchOk fetch u = true := Or.inl hD0
      refine ⟨hsub2, ?_, ?_, ?_, hfetch2⟩
      · rw [hdl, Finset.filter_insert, if_pos hP]
      · rw [hfl, Finset.filter_insert, if_neg]
        rintro ⟨hnd, _⟩
        exact hnd hD0
      · rw [hdisk, Finset.filter_insert, if_pos hP, Finset.image_insert]
        ext x
        simp only [Finset.mem_union, Finset.mem_insert]
        constructor
        · tauto
        · rintro (hx | hx | hx)
          · tauto
          · subst hx
            exact Or.inl hD0
          · tauto
    · -- the worker actually fetches
      have hD0 : pathOf u ∉ D0 := fun hc => h2 (by rw [hdisk]; exact Finset.mem_union_left _ hc)
      have hfetch3 : ∀ v ∈ st.fetched ++ [u], v ∈ insert u seen ∧ pathOf v ∉ D0 := by
        intro v hv
        rcases List.mem_append.mp hv with hv | hv
        · exact hfetch2 v hv
        · rw [List.mem_singleton.mp hv]
          exact ⟨Finset.mem_insert_self u seen, hD0⟩
      cases h3 : fetch u with
      | none =>
          rw [download_file_of_none h1 h2 h3]
          have hF : fetchFail fetch u = true := by unfold fetchFail; rw [h3]
          have hnP : ¬(pathOf u ∈ D0 ∨ fetchOk fetch u = true) := by
            rintro (hc | hc)
            · exact hD0 hc
            · unfold fetchOk at hc
              rw [h3] at hc
              exact absurd hc (by simp)
          refine ⟨hsub2, ?_, ?_, ?_, hfetch3⟩
          · rw [hdl, Finset.filter_insert, if_neg hnP]
          · rw [hfl, Finset.filter_insert, if_pos ⟨hD0, hF⟩]
          · rw [hdisk, Finset.filter_insert, if_neg hnP]
      | some resp =>
          by_cases h4 : isDisguised resp = true
          · rw [download_file_of_disguised h1 h2 h3 h4]
            have hnP : ¬(pathOf u ∈ D0 ∨ fetchOk fetch u = true) := by
              rintro (hc | hc)
              · exact hD0 hc
              · unfold fetchOk at hc
                rw [h3] at hc
                simp [h4] at hc
            have hnF : ¬(pathOf u ∉ D0 ∧ fetchFail fetch u = true) := by
              rintro ⟨-, hc⟩
              unfold fetchFail at hc
              rw [h3] at hc
              simp [h4] at hc
            refine ⟨hsub2, ?_, ?_, ?_, hfetch3⟩
            · rw [hdl, Finset.filter_insert, if_neg hnP]
            · rw [hfl, Finset.filter_insert, if_neg hnF]
            · rw [hdisk, Finset.filter_insert, if_neg hnP]
          · have h4f : isDisguised resp = false := by simpa using h4
            rcases Nat.eq_zero_or_pos resp.body.length with h5 | h5
            · rw [download_file_of_empty h1 h2 h3 h4f h5]
              have hF : fetchFail fetch u = true := by
                unfold fetchFail
                rw [h3]
                simp [h4f, h5]
              have hnP : ¬(pathOf u ∈ D0 ∨ fetchOk fetch u = true) := by
                rintro (hc | hc)
                · exact hD0 hc
                · unfold fetchOk at hc
                  rw [h3] at hc
                  simp [h5] at hc
              refine ⟨hsub2, ?_, ?_, ?_, hfetch3⟩
              · rw [hdl, Finset.filter_insert, if_neg hnP]
              · rw [hfl, Finset.filter_insert, if_pos ⟨hD0, hF⟩]
              · rw [hdisk, Finset.filter_insert, if_neg hnP]
            · rw [download_file_of_ok h1 h2 h3 h4f h5]
              have hOk : fetchOk fetch u = true := by
                unfold fetchOk
                rw [h3]
                simp [h4f, h5]
              have hP : pathOf u ∈ D0 ∨ fetchOk fetch u = true := Or.inr hOk
              refine ⟨hsub2, ?_, ?_, ?_, hfetch3⟩
              · rw [hdl, Finset.filter_insert, if_pos hP]
              · rw [hfl, Finset.filter_insert, if_neg]
                rintro ⟨-, hc⟩
                rw [fetchOk_not_fetchFail hOk] at hc
                exact absurd hc (by simp)
              · rw [hdisk, Finset.filter_insert, if_pos hP, Finset.image_insert,
                  Finset.union_insert]

end DownloadLemmas

section QueueSpec

variable {α π : Type} [DecidableEq α] [DecidableEq π]

/-- Draining any list of items preserves the queue invariant, adding
the item URLs to the processed set. -/
theorem runQueue_QInv (fetch : α → Option HttpResponse) (pathOf : α → π)
    (D0 : Finset π) (U : Finset α)
    (hinj : ∀ a ∈ U, ∀ b ∈ U, pathOf a = pathOf b → a = b) :
    ∀ (items : List (α × π)) (seen : Finset α) (st : DState α π),
      QInv fetch pathOf D0 U seen st →
      (∀ it ∈ items, it.1 ∈ U ∧ it.2 = pathOf it.1) →
      QInv fetch pathOf D0 U (seen ∪ urlsOf items) (runQueue fetch st items) := by
  intro items
  induction items with
  | nil =>
      intro seen st hI _
      simpa [urlsOf, runQueue] using hI
  | cons it rest ih =>
      intro seen st hI hitems
      obtain ⟨u, p⟩ := it
      have h1 : u ∈ U := (hitems (u, p) (List.mem_cons_self _ _)).1
      have h2 : p = pathOf u := (hitems (u, p) (List.mem_cons_self _ _)).2
      subst h2
      have hstep := QInv_step hinj h1 hI
      have hrest := ih (insert u seen) (download_file fetch st u (pathOf u)).1 hstep
        (fun it hit => hitems it (List.mem_cons_of_mem _ hit))
      have hseteq : insert u seen ∪ urlsOf rest = seen ∪ urlsOf ((u, pathOf u) :: rest) := by
        rw [show urlsOf ((u, pathOf u) :: rest) = insert u (urlsOf rest) by
          simp [urlsOf]]
        rw [Finset.insert_union, Finset.union_insert]
      rw [show runQueue fetch st ((u, pathOf u) :: rest)
          = runQueue fetch (download_file fetch st u (pathOf u)).1 rest from rfl]
      rw [← hseteq]
      exact hrest

/-- Characterization of a full queue drain started from fresh tracker
sets and an initial disk `D0`: each enqueued URL is downloaded iff its
target pre-existed or its fetch succeeds, failed iff its target did not
pre-exist and its fetch fails, the disk gains exactly the downloaded
targets, and fetches are issued only for URLs whose target did not
pre-exist. -/
theorem runQueue_spec (fetch : α → Option HttpResponse) (pathOf : α → π)
    (D0 : Finset π) (items : List (α × π))
    (hitems : ∀ it ∈ items, it.2 = pathOf it.1)
    (hinj : ∀ a ∈ urlsOf items, ∀ b ∈ urlsOf items, pathOf a = pathOf b → a = b) :
    (runQueue fetch (initDState D0) items).downloaded
        = (urlsOf items).filter (fun u => pathOf u ∈ D0 ∨ fetchOk fetch u = true) ∧
    (runQueue fetch (initDState D0) items).failed
        = (urlsOf items).filter (fun u => pathOf u ∉ D0 ∧ fetchFail fetch u = true) ∧
    (runQueue fetch (initDState D0) items).disk
        = D0 ∪ ((urlsOf items).filter
            (fun u => pathOf u ∈ D0 ∨ fetchOk fetch u = true)).image pathOf ∧
    ∀ u ∈ (runQueue fetch (initDState D0) items).fetched,
        u ∈ urlsOf items ∧ pathOf u ∉ D0 := by
  have hinit : QInv fetch pathOf D0 (urlsOf items) ∅ (initDState D0) := by
    refine ⟨Finset.empty_subset _, ?_, ?_, ?_, ?_⟩ <;> simp [initDState]
  have hmem : ∀ it ∈ items, it.1 ∈ urlsOf items ∧ it.2 = pathOf it.1 := by
    intro it hit
    refine ⟨?_, hitems it hit⟩
    simp only [urlsOf, List.mem_toFinset, List.mem_map]
    exact ⟨it, hit, rfl⟩
  have h := runQueue_QInv fetch pathOf D0 (urlsOf items) hinj items ∅ (initDState D0)
    hinit hmem
  obtain ⟨-, hdl, hfl, hdisk, hfetch⟩ := h
  rw [Finset.empty_union] at hdl hfl hdisk hfetch
  exact ⟨hdl, hfl, hdisk, hfetch⟩

end QueueSpec

section QueueClaims

variable {α π : Type} [DecidableEq α] [DecidableEq π]

/-- C2 counterexample: a single enqueued item whose fetch returns an
HTML listing disguised as a file ends, after the queue drains, in
NEITHER `downloaded_files` nor `failed_downloads` — the claim's
"exactly one terminal set" fails. -/
theorem c2_neither_set_counterexample :
    (runQueue
        (fun _ => some (HttpResponse.mk ("text/html".toList) ("<h1>Index of /sub</h1>".toList)))
        (initDState (∅ : Finset Nat)) [((3 : Nat), (3 : Nat))]).downloaded = ∅ ∧
    (runQueue
        (fun _ => some (HttpResponse.mk ("text/html".toList) ("<h1>Index of /sub</h1>".toList)))
        (initDState (∅ : Finset Nat)) [((3 : Nat), (3 : Nat))]).failed = ∅ := by
  decide

/-- C2 amended: after the queue drains (items carrying the
deterministic target path of their URL, distinct URLs having distinct
targets), no enqueued URL is in both terminal sets; a URL whose fetch
returns a disguised HTML listing and whose target did not pre-exist
ends in neither set; every other enqueued URL ends in exactly one. -/
theorem c2_terminal_sets (fetch : α → Option HttpResponse) (pathOf : α → π)
    (D0 : Finset π) (items : List (α × π))
    (hitems : ∀ it ∈ items, it.2 = pathOf it.1)
    (hinj : ∀ a ∈ urlsOf items, ∀ b ∈ urlsOf items, pathOf a = pathOf b → a = b)
    (u : α) (hu : u ∈ urlsOf items) :
    ¬(u ∈ (runQueue fetch (initDState D0) items).downloaded
        ∧ u ∈ (runQueue fetch (initDState D0) items).failed) ∧
    ((fetchDisguised fetch u = true ∧ pathOf u ∉ D0) →
      (u ∉ (runQueue fetch (initDState D0) items).downloaded
        ∧ u ∉ (runQueue fetch (initDState D0) items).failed)) ∧
    (¬(fetchDisguised fetch u = true ∧ pathOf u ∉ D0) →
      (u ∈ (runQueue fetch (initDState D0) items).downloaded
        ∨ u ∈ (runQueue fetch (initDState D0) items).failed)) := by
  obtain ⟨hdl, hfl, -, -⟩ := runQueue_spec fetch pathOf D0 items hitems hinj
  rw [hdl, hfl]
  refine ⟨?_, ?_, ?_⟩
  · rintro ⟨ha, hb⟩
    obtain ⟨-, hP⟩ := Finset.mem_filter.mp ha
    obtain ⟨-, hnd, hF⟩ := Finset.mem_filter.mp hb
    rcases hP with hc | hc
    · exact hnd hc
    · rw [fetchOk_not_fetchFail hc] at hF
      exact absurd hF (by simp)
  · rintro ⟨hd, hn⟩
    obtain ⟨hok, hfail⟩ := fetchDisguised_not_ok_fail hd
    constructor
    · intro hc
      obtain ⟨-, hP⟩ := Finset.mem_filter.mp hc
      rcases hP with hc2 | hc2
      · exact hn hc2
      · rw [hok] at hc2
        exact absurd hc2 (by simp)
    · intro hc
      obtain ⟨-, -, hF⟩ := Finset.mem_filter.mp hc
      rw [hfail] at hF
      exact absurd hF (by simp)
  · intro hnd
    rcases fetch_outcome_total fetch u with hc | hc | hc
    · exact Or.inl (Finset.mem_filter.mpr ⟨hu, Or.inr hc⟩)
    · by_cases hp : pathOf u ∈ D0
      · exact Or.inl (Finset.mem_filter.mpr ⟨hu, Or.inl hp⟩)
      · exact Or.inr (Finset.mem_filter.mpr ⟨hu, hp, hc⟩)
    · by_cases hp : pathOf u ∈ D0
      · exact Or.inl (Finset.mem_filter.mpr ⟨hu, Or.inl hp⟩)
      · exact absurd ⟨hc, hp⟩ hnd

/-- Witness for C2 amended: a one-item queue with a successful fetch. -/
theorem c2_terminal_sets_witness :
    ((∀ it ∈ [((1 : Nat), (1 : Nat))], it.2 = (fun u => u) it.1) ∧
     (∀ a ∈ urlsOf [((1 : Nat), (1 : Nat))], ∀ b ∈ urlsOf [((1 : Nat), (1 : Nat))],
        (fun u => u) a = (fun u => u) b → a = b) ∧
     (1 : Nat) ∈ urlsOf [((1 : Nat), (1 : Nat))]) ∧
    (¬((1 : Nat) ∈ (runQueue
        (fun _ => some (HttpResponse.mk ("text/plain".toList) ("data".toList)))
        (initDState (∅ : Finset Nat)) [((1 : Nat), (1 : Nat))]).downloaded
      ∧ (1 : Nat) ∈ (runQueue
        (fun _ => some (HttpResponse.mk ("text/plain".toList) ("data".toList)))
        (initDState (∅ : Finset Nat)) [((1 : Nat), (1 : Nat))]).failed)) :=
  ⟨⟨by decide, by decide, by decide⟩,
   (c2_terminal_sets
      (fun _ => some (HttpResponse.mk ("text/plain".toList) ("data".toList)))
      (fun u => u) (∅ : Finset Nat) [((1 : Nat), (1 : Nat))]
      (by decide) (by decide) 1 (by decide)).1⟩

/-- C3 counterexample: a direct call of `download_file` on a response
whose content type is HTML and whose body contains "Index of" returns
failure but leaves `failed_downloads` empty — the URL is NOT recorded
as a failure, contrary to the claim. -/
theorem c3_failed_set_untouched_counterexample :
    (download_file
        (fun _ => some (HttpResponse.mk ("text/html; charset=utf-8".toList) ("<title>Index of /d</title>".toList)))
        (initDState (∅ : Finset Nat)) (5 : Nat) (5 : Nat)).1.failed = ∅ ∧
    (download_file
        (fun _ => some (HttpResponse.mk ("text/html; charset=utf-8".toList) ("<title>Index of /d</title>".toList)))
        (initDState (∅ : Finset Nat)) (5 : Nat) (5 : Nat)).1.disk = ∅ ∧
    (download_file
        (fun _ => some (HttpResponse.mk ("text/html; charset=utf-8".toList) ("<title>Index of /d</title>".toList)))
        (initDState (∅ : Finset Nat)) (5 : Nat) (5 : Nat)).2 = false := by
  decide

/-- C3 amended: on a disguised HTML listing, `download_file` writes
nothing to the target path and returns `False`, but leaves every
tracker set unchanged — in particular the URL is recorded in NEITHER
terminal set (it is not added to `failed_downloads`). -/
theorem c3_disguised_discarded (fetch : α → Option HttpResponse)
    (st : DState α π) (u : α) (p : π) (resp : HttpResponse)
    (h1 : u ∉ st.downloaded) (h2 : p ∉ st.disk)
    (h3 : fetch u = some resp) (h4 : isDisguised resp = true) :
    (download_file fetch st u p).1.disk = st.disk ∧
    (download_file fetch st u p).1.failed = st.failed ∧
    (download_file fetch st u p).1.downloaded = st.downloaded ∧
    (download_file fetch st u p).2 = false := by
  rw [download_file_of_disguised h1 h2 h3 h4]
  exact ⟨rfl, rfl, rfl, rfl⟩

/-- Witness for C3 amended at a concrete state and response. -/
theorem c3_disguised_discarded_witness :
    (((2 : Nat) ∉ (initDState (∅ : Finset Nat) : DState Nat Nat).downloaded ∧
      (2 : Nat) ∉ (initDState (∅ : Finset Nat) : DState Nat Nat).disk ∧
      (fun (_ : Nat) => some (HttpResponse.mk ("text/html".toList) ("Index of /files".toList))) 2
        = some (HttpResponse.mk ("text/html".toList) ("Index of /files".toList)) ∧
      isDisguised (HttpResponse.mk ("text/html".toList) ("Index of /files".toList)) = true) ∧
    (download_file
        (fun _ => some (HttpResponse.mk ("text/html".toList) ("Index of /files".toList)))
        (initDState (∅ : Finset Nat) : DState Nat Nat) (2 : Nat) (2 : Nat)).1.disk
      = (initDState (∅ : Finset Nat) : DState Nat Nat).disk) :=
  ⟨⟨by decide, by decide, by decide, by decide⟩,
   (c3_disguised_discarded
      (fun _ => some (HttpResponse.mk ("text/html".toList) ("Index of /files".toList)))
      (initDState (∅ : Finset Nat)) 2 2
      (HttpResponse.mk ("text/html".toList) ("Index of /files".toList))
      (by decide) (by decide) (by decide) (by decide)).1⟩

/-- C7 counterexample: two distinct enqueued URLs sharing one sanitized
target path (`http://s/x/./y` and `http://s/x/y` both map to `out/x/y`
under `get_local_path`), the first serving a disguised listing and the
second a real file.  The second run records the first URL as downloaded
because its target now exists on disk, so the two runs' downloaded sets
differ. -/
theorem c7_rerun_counterexample :
    (runQueue rerunFetch
        (initDState (runQueue rerunFetch (initDState (∅ : Finset (List Char)))
          rerunItems).disk) rerunItems).downloaded
      ≠ (runQueue rerunFetch (initDState (∅ : Finset (List Char))) rerunItems).downloaded ∧
    (runQueue rerunFetch (initDState (∅ : Finset (List Char))) rerunItems).downloaded
      = {"http://s/x/y".toList} ∧
    (runQueue rerunFetch
        (initDState (runQueue rerunFetch (initDState (∅ : Finset (List Char)))
          rerunItems).disk) rerunItems).downloaded
      = {"http://s/x/./y".toList, "http://s/x/y".toList} := by
  decide

/-- C7 amended: when distinct enqueued URLs have distinct target paths
(injective path mapping), a second drain of the same queue against the
disk left by the first drain yields exactly the same downloaded set,
and the second run issues no fetch for any item whose target path
already exists on disk after the first run. -/
theorem c7_rerun_idempotent (fetch : α → Option HttpResponse) (pathOf : α → π)
    (items : List (α × π))
    (hitems : ∀ it ∈ items, it.2 = pathOf it.1)
    (hinj : ∀ a ∈ urlsOf items, ∀ b ∈ urlsOf items, pathOf a = pathOf b → a = b) :
    (runQueue fetch
        (initDState (runQueue fetch (initDState (∅ : Finset π)) items).disk)
        items).downloaded
      = (runQueue fetch (initDState (∅ : Finset π)) items).downloaded ∧
    ∀ it ∈ items, it.2 ∈ (runQueue fetch (initDState (∅ : Finset π)) items).disk →
      it.1 ∉ (runQueue fetch
        (initDState (runQueue fetch (initDState (∅ : Finset π)) items).disk)
        items).fetched := by
  obtain ⟨hdl1, -, hdisk1, -⟩ :=
    runQueue_spec fetch pathOf (∅ : Finset π) items hitems hinj
  obtain ⟨hdl2, -, -, hfetch2⟩ :=
    runQueue_spec fetch pathOf
      ((runQueue fetch (initDState (∅ : Finset π)) items).disk) items hitems hinj
  constructor
  · rw [hdl2, hdl1]
    apply Finset.filter_congr
    intro u hu
    constructor
    · rintro (hp | hok)
      · rw [hdisk1] at hp
        simp only [Finset.empty_union, Finset.mem_image] at hp
        obtain ⟨v, hv, hvp⟩ := hp
        obtain ⟨hv1, hv2⟩ := Finset.mem_filter.mp hv
        have hveq : v = u := hinj v hv1 u hu hvp
        subst hveq
        rcases hv2 with hc | hok2
        · exact absurd hc (by simp)
        · exact Or.inr hok2
      · exact Or.inr hok
    · rintro (hp | hok)
      · exact absurd hp (by simp)
      · exact Or.inr hok
  · intro it hit hdisk
    intro hc
    have h := hfetch2 it.1 hc
    rw [hitems it hit] at hdisk
    exact h.2 hdisk

/-- Witness for C7 amended: a one-item queue with a successful fetch;
the first run downloads the file, the second run's downloaded set is
unchanged. -/
theorem c7_rerun_idempotent_witness :
    ((∀ it ∈ [((4 : Nat), (4 : Nat))], it.2 = (fun u => u) it.1) ∧
     (∀ a ∈ urlsOf [((4 : Nat), (4 : Nat))], ∀ b ∈ urlsOf [((4 : Nat), (4 : Nat))],
        (fun u => u) a = (fun u => u) b → a = b)) ∧
    (runQueue (fun _ => some (HttpResponse.mk ("text/plain".toList) ("ok".toList)))
        (initDState (runQueue
          (fun _ => some (HttpResponse.mk ("text/plain".toList) ("ok".toList)))
          (initDState (∅ : Finset Nat)) [((4 : Nat), (4 : Nat))]).disk)
        [((4 : Nat), (4 : Nat))]).downloaded
      = (runQueue (fun _ => some (HttpResponse.mk ("text/plain".toList) ("ok".toList)))
          (initDState (∅ : Finset Nat)) [((4 : Nat), (4 : Nat))]).downloaded :=
  ⟨⟨by decide, by decide⟩,
   (c7_rerun_idempotent
      (fun _ => some (HttpResponse.mk ("text/plain".toList) ("ok".toList)))
      (fun u => u) [((4 : Nat), (4 : Nat))] (by decide) (by decide)).1⟩

end QueueClaims

/-- Accumulator-generalized characterization of the parser loop: the
outputs are the retained links, in order, classified by whether the
stripped href ends in `/`, each resolved against the page URL. -/
theorem parse_foldl_spec (base : List Char) :
    ∀ (links : List Link) (acc : DirListing (List Char)),
      (links.foldl (parseStep base) acc).files
          = acc.files
            ++ (links.filter (fun l => keptLink l && !(isDirHref l))).map (resolvedOf base) ∧
      (links.foldl (parseStep base) acc).directories
          = acc.directories
            ++ (links.filter (fun l => keptLink l && isDirHref l)).map (resolvedOf base) := by
  intro links
  induction links with
  | nil => intro acc; simp
  | cons l rest ih =>
      intro acc
      by_cases hk : skipHref (pyStrip l.href) l.text = true
      · have hk1 : keptLink l = false := by simp [keptLink, hk]
        simpa [parseStep, hk, hk1] using ih acc
      · have hk1 : keptLink l = true := by simp [keptLink, hk]
        by_cases hd : (pyStrip l.href).getLast? == some '/'
        · have hd1 : isDirHref l = true := by simpa [isDirHref] using hd
          have := ih { acc with directories := acc.directories ++ [resolvedOf base l] }
          simp [parseStep, hk, hd, hk1, hd1, resolvedOf] at this ⊢
          exact this
        · have hd1 : isDirHref l = false := by simpa [isDirHref] using hd
          have := ih { acc with files := acc.files ++ [resolvedOf base l] }
          simp [parseStep, hk, hd, hk1, hd1, resolvedOf] at this ⊢
          exact this

/-- C5 counterexample: the href `http://x/sub/#top` is retained, does
not end in `/`, and is therefore classified as a file, yet the resolved
URL's path component is `/sub/`, which ends in `/`.  Classification
follows the raw href, not the resolved URL's path. -/
theorem c5_href_vs_path_counterexample :
    (parse_directory_listing ("http://b".toList)
        [⟨"http://x/sub/#top".toList, "sub".toList⟩]).files
      = ["http://x/sub/#top".toList] ∧
    (urlPathOf ("http://x/sub/#top".toList)).getLast? = some '/' := by
  decide

/-- C5 amended: for every retained hyperlink the parser classifies the
resolved URL as a directory if and only if the stripped href target ends
in `/` (this coincides with the resolved URL's path ending in `/` only
when the href carries no query or fragment part). -/
theorem c5_classified_by_href_slash (base : List Char) (links : List Link) :
    (parse_directory_listing base links).directories
        = (links.filter (fun l => keptLink l && isDirHref l)).map (resolvedOf base) ∧
    (parse_directory_listing base links).files
        = (links.filter (fun l => keptLink l && !(isDirHref l))).map (resolvedOf base) := by
  have h := parse_foldl_spec base links ⟨[], []⟩
  exact ⟨by simpa using h.2, by simpa using h.1⟩

/-- C6 counterexample: a link whose href target is the single character
`.` is not in the code's skip list, so it is retained and classified as
a file (resolving to the page URL itself); the claim says such targets
are discarded. -/
theorem c6_dot_href_retained :
    (parse_directory_listing ("http://x".toList) [⟨".".toList, "file".toList⟩]).files
      = ["http://x/".toList] ∧
    (parse_directory_listing ("http://x".toList) [⟨".".toList, "file".toList⟩]).files
      ≠ [] := by
  decide

/-- C6 amended: every URL the parser outputs comes from a link whose
stripped href is nonempty, differs from `./`, `/` and `../`, does not
start with `?`, and whose visible text does not contain the phrase
"Parent Directory".  (The bare target `.` is NOT discarded, unlike what
the claim states.) -/
theorem c6_no_parent_links (base : List Char) (links : List Link) (u : List Char)
    (hu : u ∈ (parse_directory_listing base links).files
        ∨ u ∈ (parse_directory_listing base links).directories) :
    ∃ l, l ∈ links ∧ u = resolvedOf base l ∧
      pyStrip l.href ≠ [] ∧ pyStrip l.href ≠ ("./".toList) ∧
      pyStrip l.href ≠ ("/".toList) ∧ pyStrip l.href ≠ ("../".toList) ∧
      (pyStrip l.href).head? ≠ some '?' ∧
      containsSub ("Parent Directory".toList) l.text = false := by
  have h := parse_foldl_spec base links ⟨[], []⟩
  have hmem : ∃ l, l ∈ links ∧ keptLink l = true ∧ u = resolvedOf base l := by
    rcases hu with hu | hu
    · rw [show (parse_directory_listing base links).files
          = (links.filter (fun l => keptLink l && !(isDirHref l))).map (resolvedOf base) by
            simpa using h.1] at hu
      rcases List.mem_map.mp hu with ⟨l, hl, hres⟩
      rcases List.mem_filter.mp hl with ⟨hl1, hl2⟩
      exact ⟨l, hl1, (Bool.and_eq_true _ _).mp hl2 |>.1, hres.symm⟩
    · rw [show (parse_directory_listing base links).directories
          = (links.filter (fun l => keptLink l && isDirHref l)).map (resolvedOf base) by
            simpa using h.2] at hu
      rcases List.mem_map.mp hu with ⟨l, hl, hres⟩
      rcases List.mem_filter.mp hl with ⟨hl1, hl2⟩
      exact ⟨l, hl1, (Bool.and_eq_true _ _).mp hl2 |>.1, hres.symm⟩
  rcases hmem with ⟨l, hl, hk, hres⟩
  refine ⟨l, hl, hres, ?_, ?_, ?_, ?_, ?_, ?_⟩ <;>
    · simp only [keptLink, skipHref, Bool.not_eq_eq_eq_not, Bool.not_true,
        Bool.or_eq_false_iff, beq_eq_false_iff_ne, ne_eq] at hk
      tauto

/-- Witness for C6 amended: the link `a.txt` is retained and its output
URL satisfies all the discard conditions. -/
theorem c6_no_parent_links_witness :
    ("http://x/a.txt".toList ∈ (parse_directory_listing ("http://x".toList)
        [⟨"a.txt".toList, "a".toList⟩]).files
      ∨ "http://x/a.txt".toList ∈ (parse_directory_listing ("http://x".toList)
        [⟨"a.txt".toList, "a".toList⟩]).directories) ∧
    (∃ l, l ∈ [Link.mk ("a.txt".toList) ("a".toList)] ∧
      "http://x/a.txt".toList = resolvedOf ("http://x".toList) l ∧
      pyStrip l.href ≠ [] ∧ pyStrip l.href ≠ ("./".toList) ∧
      pyStrip l.href ≠ ("/".toList) ∧ pyStrip l.href ≠ ("../".toList) ∧
      (pyStrip l.href).head? ≠ some '?' ∧
      containsSub ("Parent Directory".toList) l.text = false) :=
  ⟨by decide,
   c6_no_parent_links ("http://x".toList) [Link.mk ("a.txt".toList) ("a".toList)]
     ("http://x/a.txt".toList) (by decide)⟩

/-- Witness for C8 amended at the concrete path `a/b.txt`. -/
theorem c8_sanitize_idempotent_witness :
    (containsSub ("../".toList) (sanitizePath ("a/b.txt".toList)) = false ∧
     containsSub ("./".toList) (sanitizePath ("a/b.txt".toList)) = false) ∧
    sanitizePath (sanitizePath ("a/b.txt".toList)) = sanitizePath ("a/b.txt".toList) :=
  ⟨⟨by decide, by decide⟩,
   c8_sanitize_idempotent_when_clean ("a/b.txt".toList) (by decide) (by decide)⟩

section CrawlLemmas

variable {α π : Type} [DecidableEq α]
variable {server : α → DirListing α} {pathOf : α → π}

omit [DecidableEq α] in
/-- Reflexivity of the crawl extension order. -/
theorem crawlExt_refl (s : CrawlSt α π) : crawlExt s s :=
  ⟨Finset.Subset.refl _, ⟨[], by simp⟩, ⟨[], by simp⟩⟩

omit [DecidableEq α] in
/-- Transitivity of the crawl extension order. -/
theorem crawlExt_trans {s t w : CrawlSt α π} (h1 : crawlExt s t) (h2 : crawlExt t w) :
    crawlExt s w := by
  obtain ⟨a1, ⟨q1, hq1⟩, ⟨d1, hd1⟩⟩ := h1
  obtain ⟨a2, ⟨q2, hq2⟩, ⟨d2, hd2⟩⟩ := h2
  exact ⟨a1.trans a2,
    ⟨q1 ++ q2, by rw [hq2, hq1, List.append_assoc]⟩,
    ⟨d1 ++ d2, by rw [hd2, hd1, List.append_assoc]⟩⟩

omit [DecidableEq α] in
/-- Folding a step that extends the state extends the state. -/
theorem foldl_crawlExt {β : Type} (f : CrawlSt α π → β → CrawlSt α π)
    (hf : ∀ s b, crawlExt s (f s b)) :
    ∀ (l : List β) (s : CrawlSt α π), crawlExt s (l.foldl f s) := by
  intro l
  induction l with
  | nil => intro s; exact crawlExt_refl s
  | cons b rest ih => intro s; exact crawlExt_trans (hf s b) (ih (f s b))

omit [DecidableEq α] in
/-- Folding a step that preserves a predicate preserves the predicate,
provided every folded element satisfies a guard. -/
theorem foldl_pred {β : Type} (f : CrawlSt α π → β → CrawlSt α π)
    (P : CrawlSt α π → Prop) (Q : β → Prop)
    (hf : ∀ s b, Q b → P s → P (f s b)) :
    ∀ (l : List β) (s : CrawlSt α π), (∀ b ∈ l, Q b) → P s → P (l.foldl f s) := by
  intro l
  induction l with
  | nil => intro s _ hP; exact hP
  | cons b rest ih =>
      intro s hQ hP
      exact ih (f s b)
        (fun x hx => hQ x (List.mem_cons_of_mem _ hx))
        (hf s b (hQ b (List.mem_cons_self _ _)) hP)

/-- A crawl only extends the state: the scanned set grows and the queue
and trace are appended to. -/
theorem crawl_ext : ∀ (fuel : Nat) (st : CrawlSt α π) (url : α),
    crawlExt st (crawl_directory server pathOf fuel st url) := by
  intro fuel
  induction fuel with
  | zero => intro st url; exact crawlExt_refl st
  | succ n ih =>
      intro st url
      by_cases h : url ∈ st.scanned
      · simp only [crawl_directory, h, if_true]
        exact crawlExt_refl st
      · simp only [crawl_directory, h, if_false]
        refine crawlExt_trans ?_ (foldl_crawlExt _ (fun s b => ih s b) _ _)
        exact ⟨Finset.subset_insert _ _, ⟨_, rfl⟩, ⟨_, rfl⟩⟩

/-- If the listing oracle never leads outside `univ`, a crawl of an
in-`univ` URL keeps the scanned set inside `univ`. -/
theorem crawl_scanned_univ (univ : Finset α)
    (hclosed : ∀ u ∈ univ, ∀ d ∈ (server u).directories, d ∈ univ) :
    ∀ (fuel : Nat) (st : CrawlSt α π) (url : α), url ∈ univ → st.scanned ⊆ univ →
      (crawl_directory server pathOf fuel st url).scanned ⊆ univ := by
  intro fuel
  induction fuel with
  | zero => intro st url _ hs; exact hs
  | succ n ih =>
      intro st url hu hs
      by_cases h : url ∈ st.scanned
      · simp only [crawl_directory, h, if_true]
        exact hs
      · simp only [crawl_directory, h, if_false]
        refine foldl_pred _ (fun s => s.scanned ⊆ univ) (fun d => d ∈ univ)
          (fun s b hb hP => ih s b hb hP) _ _ (hclosed url hu) ?_
        exact Finset.insert_subset hu hs

/-- One extra unit of fuel changes nothing once the fuel exceeds the
number of unscanned universe elements: the visited-set check is the
real termination mechanism. -/
theorem crawl_fuel_succ (univ : Finset α)
    (hclosed : ∀ u ∈ univ, ∀ d ∈ (server u).directories, d ∈ univ) :
    ∀ (fuel : Nat) (st : CrawlSt α π) (url : α), url ∈ univ → st.scanned ⊆ univ →
      univ.card - st.scanned.card < fuel →
      crawl_directory server pathOf fuel st url
        = crawl_directory server pathOf (fuel + 1) st url := by
  intro fuel
  induction fuel with
  | zero => intro st url _ _ hlt; exact absurd hlt (Nat.not_lt_zero _)
  | succ n ih =>
      intro st url hu hs hlt
      by_cases h : url ∈ st.scanned
      · simp only [crawl_directory, h, if_true]
      · simp only [crawl_directory, h, if_false]
        have hcard : st.scanned.card < univ.card :=
          Finset.card_lt_card ((Finset.ssubset_iff_of_subset hs).mpr ⟨url, hu, h⟩)
        have hb1 : univ.card - (insert url st.scanned).card < n := by
          rw [Finset.card_insert_of_not_mem h]
          omega
        have hs1 : insert url st.scanned ⊆ univ := Finset.insert_subset hu hs
        have inner : ∀ (l : List α), (∀ d ∈ l, d ∈ univ) →
            ∀ (s : CrawlSt α π), s.scanned ⊆ univ → univ.card - s.scanned.card < n →
            l.foldl (crawl_directory server pathOf n) s
              = l.foldl (crawl_directory server pathOf (n + 1)) s := by
          intro l
          induction l with
          | nil => intro _ s _ _; rfl
          | cons d ds ihl =>
              intro hdl s hsu hbd
              have hd : d ∈ univ := hdl d (List.mem_cons_self _ _)
              have heq := ih s d hd hsu hbd
              simp only [List.foldl_cons]
              rw [← heq]
              apply ihl (fun x hx => hdl x (List.mem_cons_of_mem _ hx))
              · exact crawl_scanned_univ univ hclosed n s d hd hsu
              · have hmono := (@crawl_ext α π _ server pathOf n s d).1
                have hle : s.scanned.card
                    ≤ (crawl_directory server pathOf n s d).scanned.card :=
                  Finset.card_le_card hmono
                omega
        exact inner _ (hclosed url hu) _ hs1 hb1

/-- Fuel irrelevance above the sufficiency bound. -/
theorem crawl_fuel_ge (univ : Finset α)
    (hclosed : ∀ u ∈ univ, ∀ d ∈ (server u).directories, d ∈ univ)
    (fuel : Nat) (st : CrawlSt α π) (url : α) (hu : url ∈ univ)
    (hs : st.scanned ⊆ univ) (hfuel : univ.card - st.scanned.card < fuel) :
    ∀ k, crawl_directory server pathOf (fuel + k) st url
        = crawl_directory server pathOf fuel st url := by
  intro k
  induction k with
  | zero => rfl
  | succ m ihm =>
      have hstep := @crawl_fuel_succ α π _ server pathOf univ hclosed (fuel + m) st url hu hs
        (lt_of_lt_of_le hfuel (Nat.le_add_right _ _))
      calc crawl_directory server pathOf (fuel + (m + 1)) st url
          = crawl_directory server pathOf ((fuel + m) + 1) st url := rfl
        _ = crawl_directory server pathOf (fuel + m) st url := hstep.symm
        _ = crawl_directory server pathOf fuel st url := ihm

/-- Completeness of a sufficiently fuelled crawl: the root ends up
scanned, and the set of newly scanned URLs is closed under the listing
oracle's subdirectories. -/
theorem crawl_complete (univ : Finset α)
    (hclosed : ∀ u ∈ univ, ∀ d ∈ (server u).directories, d ∈ univ) :
    ∀ (fuel : Nat) (st : CrawlSt α π) (url : α), url ∈ univ → st.scanned ⊆ univ →
      univ.card - st.scanned.card < fuel →
      url ∈ (crawl_directory server pathOf fuel st url).scanned ∧
      (∀ u ∈ (crawl_directory server pathOf fuel st url).scanned,
        u ∈ st.scanned ∨ ∀ d ∈ (server u).directories,
          d ∈ (crawl_directory server pathOf fuel st url).scanned) := by
  intro fuel
  induction fuel with
  | zero => intro st url _ _ hlt; exact absurd hlt (Nat.not_lt_zero _)
  | succ n ih =>
      intro st url hu hs hlt
      by_cases h : url ∈ st.scanned
      · have hcr : crawl_directory server pathOf (n + 1) st url = st := by
          simp [crawl_directory, h]
        rw [hcr]
        exact ⟨h, fun u hmem => Or.inl hmem⟩
      · have hcard : st.scanned.card < univ.card :=
          Finset.card_lt_card ((Finset.ssubset_iff_of_subset hs).mpr ⟨url, hu, h⟩)
        have hb1 : univ.card - (insert url st.scanned).card < n := by
          rw [Finset.card_insert_of_not_mem h]
          omega
        have hs1 : insert url st.scanned ⊆ univ := Finset.insert_subset hu hs
        have inner : ∀ (l : List α), (∀ d ∈ l, d ∈ univ) →
            ∀ (s : CrawlSt α π), s.scanned ⊆ univ → univ.card - s.scanned.card < n →
            (∀ d ∈ l, d ∈ (l.foldl (crawl_directory server pathOf n) s).scanned) ∧
            (∀ u ∈ (l.foldl (crawl_directory server pathOf n) s).scanned,
              u ∈ s.scanned ∨ ∀ d2 ∈ (server u).directories,
                d2 ∈ (l.foldl (crawl_directory server pathOf n) s).scanned) := by
          intro l
          induction l with
          | nil =>
              intro _ s _ _
              exact ⟨fun d hd => absurd hd (List.not_mem_nil d),
                fun u hmem => Or.inl hmem⟩
          | cons d ds ihl =>
              intro hdl s hsu hbd
              have hd : d ∈ univ := hdl d (List.mem_cons_self _ _)
              have hstep := ih s d hd hsu hbd
              have hsu2 : (crawl_directory server pathOf n s d).scanned ⊆ univ :=
                crawl_scanned_univ univ hclosed n s d hd hsu
              have hmono := (@crawl_ext α π _ server pathOf n s d).1
              have hbd2 : univ.card
                  - (crawl_directory server pathOf n s d).scanned.card < n := by
                have hle : s.scanned.card
                    ≤ (crawl_directory server pathOf n s d).scanned.card :=
                  Finset.card_le_card hmono
                omega
              have hrest := ihl (fun x hx => hdl x (List.mem_cons_of_mem _ hx))
                (crawl_directory server pathOf n s d) hsu2 hbd2
              have hfold_mono : (crawl_directory server pathOf n s d).scanned
                  ⊆ (ds.foldl (crawl_directory server pathOf n)
                      (crawl_directory server pathOf n s d)).scanned :=
                (foldl_crawlExt _ (fun a b => crawl_ext n a b) ds _).1
              simp only [List.foldl_cons]
              constructor
              · intro x hx
                rcases List.mem_cons.mp hx with hx | hx
                · subst hx
                  exact hfold_mono (hstep.1)
                · exact hrest.1 x hx
              · intro u hmem
                rcases hrest.2 u hmem with hcase | hcase
                · rcases hstep.2 u hcase with hcase2 | hcase2
                  · exact Or.inl hcase2
                  · exact Or.inr (fun d2 hd2 => hfold_mono (hcase2 d2 hd2))
                · exact Or.inr hcase
        have hinner := inner ((server url).directories) (hclosed url hu)
          { scanned := insert url st.scanned,
            queue := st.queue ++ (server url).files.map (fun f => (f, pathOf f)),
            trace := st.trace
              ++ (CEv.visit url :: CEv.fetch url
                    :: (server url).files.map (CEv.enq url)) }
          hs1 hb1
        simp only [crawl_directory, h, if_false]
        constructor
        · have hfold_mono := (foldl_crawlExt
            (crawl_directory server pathOf n) (fun a b => crawl_ext n a b)
            ((server url).directories)
            { scanned := insert url st.scanned,
              queue := st.queue ++ (server url).files.map (fun f => (f, pathOf f)),
              trace := st.trace
                ++ (CEv.visit url :: CEv.fetch url
                      :: (server url).files.map (CEv.enq url)) }).1
          exact hfold_mono (Finset.mem_insert_self url _)
        · intro u hmem
          rcases hinner.2 u hmem with hcase | hcase
          · rcases Finset.mem_insert.mp hcase with hcase2 | hcase2
            · subst hcase2
              exact Or.inr (fun d2 hd2 => hinner.1 d2 hd2)
            · exact Or.inl hcase2
          · exact Or.inr hcase

omit [DecidableEq α] in
/-- Fetch events of a concatenation of traces. -/
theorem fetchesOf_append (a b : List (CEv α)) :
    fetchesOf (a ++ b) = fetchesOf a ++ fetchesOf b := by
  induction a with
  | nil => rfl
  | cons e t ih => cases e <;> simp [fetchesOf, ih]

omit [DecidableEq α] in
/-- Visit events of a concatenation of traces. -/
theorem visitsOf_append (a b : List (CEv α)) :
    visitsOf (a ++ b) = visitsOf a ++ visitsOf b := by
  induction a with
  | nil => rfl
  | cons e t ih => cases e <;> simp [visitsOf, ih]

omit [DecidableEq α] in
/-- Enqueue events contain no fetch events. -/
theorem fetchesOf_map_enq (d : α) (l : List α) :
    fetchesOf (l.map (CEv.enq d)) = [] := by
  induction l with
  | nil => rfl
  | cons f t ih => simp [fetchesOf, ih]

omit [DecidableEq α] in
/-- Enqueue events contain no visit events. -/
theorem visitsOf_map_enq (d : α) (l : List α) :
    visitsOf (l.map (CEv.enq d)) = [] := by
  induction l with
  | nil => rfl
  | cons f t ih => simp [visitsOf, ih]

omit [DecidableEq α] in
/-- Appending one crawl step's event block preserves the property that
every fetch is preceded by the matching visit. -/
theorem fetchAfterVisit_extend {t : List (CEv α)} (h : fetchAfterVisit t)
    (url : α) (files : List α) :
    fetchAfterVisit
      (t ++ (CEv.visit url :: CEv.fetch url :: files.map (CEv.enq url))) := by
  intro pre v post heq
  rcases List.append_eq_append_iff.mp heq with ⟨w, hpre, hB⟩ | ⟨w, ht, hd⟩
  · cases w with
    | nil =>
        simp only [List.nil_append] at hB
        exact absurd hB (by simp)
    | cons x w2 =>
        simp only [List.cons_append] at hB
        injection hB with hx hB2
        cases w2 with
        | nil =>
            simp only [List.nil_append] at hB2
            injection hB2 with hy hB3
            injection hy with huv
            subst huv
            rw [hpre, ← hx]
            simp
        | cons y w3 =>
            simp only [List.cons_append] at hB2
            injection hB2 with hy hB3
            have hmem : CEv.fetch v ∈ files.map (CEv.enq url) := by
              rw [hB3]
              simp
            simp at hmem
  · cases w with
    | nil =>
        simp only [List.nil_append] at hd
        exact absurd hd (by simp)
    | cons x w2 =>
        simp only [List.cons_append] at hd
        injection hd with hx hd2
        exact h pre v w2 (by rw [ht, hx])

omit [DecidableEq α] in
/-- Appending one crawl step's event block preserves the property that
every file enqueue is preceded by the visit of its directory. -/
theorem enqAfterVisit_extend {t : List (CEv α)} (h : enqAfterVisit t)
    (url : α) (files : List α) :
    enqAfterVisit
      (t ++ (CEv.visit url :: CEv.fetch url :: files.map (CEv.enq url))) := by
  intro pre d f post heq
  rcases List.append_eq_append_iff.mp heq with ⟨w, hpre, hB⟩ | ⟨w, ht, hd⟩
  · cases w with
    | nil =>
        simp only [List.nil_append] at hB
        exact absurd hB (by simp)
    | cons x w2 =>
        simp only [List.cons_append] at hB
        injection hB with hx hB2
        cases w2 with
        | nil =>
            simp only [List.nil_append] at hB2
            injection hB2 with hy hB3
            exact absurd hy (by simp)
        | cons y w3 =>
            simp only [List.cons_append] at hB2
            injection hB2 with hy hB3
            have hmem : CEv.enq d f ∈ files.map (CEv.enq url) := by
              rw [hB3]
              simp
            simp only [List.mem_map] at hmem
            obtain ⟨a, -, ha⟩ := hmem
            injection ha with had haf
            rw [hpre, ← hx, had]
            simp
  · cases w with
    | nil =>
        simp only [List.nil_append] at hd
        exact absurd hd (by simp)
    | cons x w2 =>
        simp only [List.cons_append] at hd
        injection hd with hx hd2
        exact h pre d f w2 (by rw [ht, hx])

/-- One unvisited-URL crawl step preserves the trace invariant. -/
theorem traceInv_step {st : CrawlSt α π} (hInv : traceInv server st)
    (url : α) (hurl : url ∉ st.scanned) :
    traceInv server
      { scanned := insert url st.scanned,
        queue := st.queue ++ (server url).files.map (fun f => (f, pathOf f)),
        trace := st.trace
          ++ (CEv.visit url :: CEv.fetch url
                :: (server url).files.map (CEv.enq url)) } := by
  obtain ⟨hnd, hiff, hvnd, hviff, hfav, heav, hblocks⟩ := hInv
  have hfe : fetchesOf (st.trace
      ++ (CEv.visit url :: CEv.fetch url :: (server url).files.map (CEv.enq url)))
      = fetchesOf st.trace ++ [url] := by
    rw [fetchesOf_append]
    simp [fetchesOf, fetchesOf_map_enq]
  have hve : visitsOf (st.trace
      ++ (CEv.visit url :: CEv.fetch url :: (server url).files.map (CEv.enq url)))
      = visitsOf st.trace ++ [url] := by
    rw [visitsOf_append]
    simp [visitsOf, visitsOf_map_enq]
  have hnotin : url ∉ fetchesOf st.trace := fun hc => hurl ((hiff url).mp hc)
  have hvnotin : url ∉ visitsOf st.trace := fun hc => hurl ((hviff url).mp hc)
  refine ⟨?_, ?_, ?_, ?_, ?_, ?_, ?_⟩
  · show (fetchesOf (st.trace ++ _)).Nodup
    rw [hfe]
    simp [List.nodup_append, hnd, hnotin]
  · intro u
    show u ∈ fetchesOf (st.trace ++ _) ↔ _
    rw [hfe]
    simp only [List.mem_append, List.mem_singleton, Finset.mem_insert, hiff]
    tauto
  · show (visitsOf (st.trace ++ _)).Nodup
    rw [hve]
    simp [List.nodup_append, hvnd, hvnotin]
  · intro u
    show u ∈ visitsOf (st.trace ++ _) ↔ _
    rw [hve]
    simp only [List.mem_append, List.mem_singleton, Finset.mem_insert, hviff]
    tauto
  · exact fetchAfterVisit_extend hfav url (server url).files
  · exact enqAfterVisit_extend heav url (server url).files
  · intro u hu
    rcases Finset.mem_insert.mp hu with hcase | hcase
    · subst hcase
      exact ⟨st.trace, [], by simp⟩
    · obtain ⟨a, b, hab⟩ := hblocks u hcase
      exact ⟨a, b ++ (CEv.visit url :: CEv.fetch url
        :: (server url).files.map (CEv.enq url)), by rw [hab]; simp⟩

omit [DecidableEq α] in
/-- The crawler's initial state satisfies the trace invariant. -/
theorem traceInv_init : traceInv server (@initCrawlSt α π) := by
  refine ⟨?_, ?_, ?_, ?_, ?_, ?_, ?_⟩ <;>
    simp [initCrawlSt, fetchesOf, visitsOf, fetchAfterVisit, enqAfterVisit]

/-- Every crawl, with any fuel, preserves the trace invariant. -/
theorem crawl_traceInv : ∀ (fuel : Nat) (st : CrawlSt α π) (url : α),
    traceInv server st →
    traceInv server (crawl_directory server pathOf fuel st url) := by
  intro fuel
  induction fuel with
  | zero => intro st url h; exact h
  | succ n ih =>
      intro st url h
      by_cases hmem : url ∈ st.scanned
      · simp only [crawl_directory, hmem, if_true]
        exact h
      · simp only [crawl_directory, hmem, if_false]
        refine foldl_pred _ (traceInv server) (fun _ => True)
          (fun s b _ hP => ih s b hP) _ _ (fun b _ => trivial) ?_
        exact traceInv_step h url hmem

end CrawlLemmas

/-- C4: for every finite directory graph (`univ` closed under the
listing oracle's subdirectory links, cycles allowed), the crawl
terminates — any fuel beyond `|univ|` gives the same result — and in
that final state: the fetch events are duplicate-free (each directory
fetched exactly once), the fetched directories are exactly the scanned
ones, the root is scanned and the scanned set is closed under
subdirectory links (every reachable directory is fetched), and every
fetch event is preceded by the visit event that added the directory to
`scanned_dirs`. -/
theorem c4_crawl_cycle_safe {α π : Type} [DecidableEq α]
    (server : α → DirListing α) (pathOf : α → π) (univ : Finset α)
    (hclosed : ∀ u ∈ univ, ∀ d ∈ (server u).directories, d ∈ univ)
    (root : α) (hroot : root ∈ univ) (fuel : Nat) (hfuel : univ.card < fuel) :
    (∀ k, crawl_directory server pathOf (fuel + k) (@initCrawlSt α π) root
        = crawl_directory server pathOf fuel (@initCrawlSt α π) root) ∧
    (fetchesOf (crawl_directory server pathOf fuel (@initCrawlSt α π) root).trace).Nodup ∧
    (∀ u, u ∈ fetchesOf (crawl_directory server pathOf fuel (@initCrawlSt α π) root).trace
        ↔ u ∈ (crawl_directory server pathOf fuel (@initCrawlSt α π) root).scanned) ∧
    root ∈ (crawl_directory server pathOf fuel (@initCrawlSt α π) root).scanned ∧
    (∀ u ∈ (crawl_directory server pathOf fuel (@initCrawlSt α π) root).scanned,
      ∀ d ∈ (server u).directories,
        d ∈ (crawl_directory server pathOf fuel (@initCrawlSt α π) root).scanned) ∧
    (∀ pre u post,
      (crawl_directory server pathOf fuel (@initCrawlSt α π) root).trace
        = pre ++ CEv.fetch u :: post → CEv.visit u ∈ pre) := by
  have hsub : (@initCrawlSt α π).scanned ⊆ univ := Finset.empty_subset _
  have hbound : univ.card - (@initCrawlSt α π).scanned.card < fuel := by
    simpa [initCrawlSt] using hfuel
  have hInv := @crawl_traceInv α π _ server pathOf fuel (@initCrawlSt α π) root
    (@traceInv_init α π server)
  obtain ⟨hnd, hiff, -, -, hfav, -, -⟩ := hInv
  have hcomp := @crawl_complete α π _ server pathOf univ hclosed fuel
    (@initCrawlSt α π) root hroot hsub hbound
  refine ⟨?_, hnd, hiff, hcomp.1, ?_, hfav⟩
  · intro k
    exact @crawl_fuel_ge α π _ server pathOf univ hclosed fuel (@initCrawlSt α π)
      root hroot hsub hbound k
  · intro u hu d hd
    rcases hcomp.2 u hu with hc | hc
    · exact absurd hc (by simp [initCrawlSt])
    · exact hc d hd

/-- Witness for C4 at the concrete two-directory cycle (directory 0
links to 1, directory 1 links back to 0): the crawl terminates and each
of the two directories is fetched exactly once. -/
theorem c4_crawl_cycle_safe_witness :
    ((∀ u ∈ ({0, 1} : Finset Nat), ∀ d ∈ (cycleServer u).directories,
        d ∈ ({0, 1} : Finset Nat)) ∧
     (0 : Nat) ∈ ({0, 1} : Finset Nat) ∧
     ({0, 1} : Finset Nat).card < 3) ∧
    (fetchesOf (crawl_directory cycleServer (fun u => u) 3
        (@initCrawlSt Nat Nat) 0).trace).Nodup :=
  ⟨⟨by decide, by decide, by decide⟩,
   (c4_crawl_cycle_safe cycleServer (fun u => u) ({0, 1} : Finset Nat)
      (by decide) 0 (by decide) 3 (by decide)).2.1⟩

/-- C9 counterexample: with the root 0 listing directories 1 and 2 in
that order and directory 2 listing file 9 plus the already-visited
directory 1, the crawl enqueues directory 2's file 9 AFTER directory 1
— a subdirectory of 2 — was visited, contradicting the claim that all
of a directory's files are enqueued before any of its subdirectories is
visited. -/
theorem c9_shared_subdir_counterexample :
    (crawl_directory crossServer (fun u => u) 4 (@initCrawlSt Nat Nat) 0).trace
      = [CEv.visit 0, CEv.fetch 0, CEv.visit 1, CEv.fetch 1,
         CEv.visit 2, CEv.fetch 2] ++ CEv.enq 2 9 :: [] ∧
    (1 : Nat) ∈ (crossServer 2).directories ∧
    (9 : Nat) ∈ (crossServer 2).files ∧
    CEv.visit (1 : Nat) ∈ [CEv.visit (0 : Nat), CEv.fetch 0, CEv.visit 1,
      CEv.fetch 1, CEv.visit 2, CEv.fetch 2] := by
  decide

/-- C9 amended: in every crawl (any fuel, any listing oracle), (a) a
file is never enqueued before the visit event of the directory whose
listing produced it, (b) each visited directory's trace contains the
contiguous block visit-fetch-enqueue-all-files, so its files are
enqueued before any visit event its own processing initiates (only a
subdirectory already visited earlier via another parent can precede
them), and (c) no directory is visited twice. -/
theorem c9_enqueue_ordering {α π : Type} [DecidableEq α]
    (server : α → DirListing α) (pathOf : α → π) (fuel : Nat) (root : α) :
    enqAfterVisit (crawl_directory server pathOf fuel (@initCrawlSt α π) root).trace ∧
    (∀ u ∈ (crawl_directory server pathOf fuel (@initCrawlSt α π) root).scanned,
      visitBlock server
        (crawl_directory server pathOf fuel (@initCrawlSt α π) root).trace u) ∧
    (visitsOf (crawl_directory server pathOf fuel (@initCrawlSt α π) root).trace).Nodup ∧
    (∀ u, u ∈ visitsOf (crawl_directory server pathOf fuel (@initCrawlSt α π) root).trace
        ↔ u ∈ (crawl_directory server pathOf fuel (@initCrawlSt α π) root).scanned) := by
  have hInv := @crawl_traceInv α π _ server pathOf fuel (@initCrawlSt α π) root
    (@traceInv_init α π server)
  obtain ⟨-, -, hvnd, hviff, -, heav, hblocks⟩ := hInv
  exact ⟨heav, hblocks, hvnd, hviff⟩

/-- Witness for C9 amended on the one-file server: the enqueue of file
9 by directory 0 is preceded by the visit of directory 0. -/
theorem c9_enqueue_ordering_witness :
    ((crawl_directory lineServer (fun u => u) 2 (@initCrawlSt Nat Nat) 0).trace
      = [CEv.visit 0, CEv.fetch 0] ++ CEv.enq 0 9 :: []) ∧
    CEv.visit (0 : Nat) ∈ [CEv.visit (0 : Nat), CEv.fetch 0] :=
  ⟨by decide,
   (c9_enqueue_ordering lineServer (fun u => u) 2 0).1
     [CEv.visit 0, CEv.fetch 0] 0 9 [] (by decide)⟩

/-- C10: the constructor strips all trailing slash characters from the
supplied root URL (`base_url.rstrip('/')`) before crawling, so two root
URL strings differing only in trailing slashes produce identical crawl
states: same `scanned_dirs`, same enqueued work items, same trace. -/
theorem c10_trailing_slash_invariance {π : Type} [DecidableEq π]
    (server : List Char → DirListing (List Char)) (pathOf : List Char → π)
    (fuel : Nat) (s : List Char) (m n : Nat) :
    start_download_crawl server pathOf fuel (s ++ List.replicate m '/')
      = start_download_crawl server pathOf fuel (s ++ List.replicate n '/') ∧
    rstripSlashes (s ++ List.replicate m '/') = rstripSlashes s := by
  have key : ∀ k, rstripSlashes (s ++ List.replicate k '/') = rstripSlashes s := by
    intro k
    unfold rstripSlashes
    rw [List.reverse_append, List.reverse_replicate]
    congr 1
    induction k with
    | zero => rw [List.replicate_zero, List.nil_append]
    | succ j ihj =>
        rw [List.replicate_succ, List.cons_append]
        rw [List.dropWhile_cons_of_pos (by decide)]
        exact ihj
  constructor
  · unfold start_download_crawl
    rw [key m, key n]
  · exact key m

end RecursiveSpider
